import Mathlib

/-! Shallow embedding of the api-docs generator and updater scripts
(api-docs-generator.ts and api-docs-update.ts).  The JavaScript string
primitives the scripts use are modelled on lists of characters, and each
source function is translated into an executable Lean definition whose
name follows the source. -/

/-- JavaScript String.prototype.split with a one-character separator,
on char lists: splitting the empty text gives one empty segment, and a
separator at either end produces an empty segment there. -/
def jsSplit (c : Char) : List Char → List (List Char)
  | [] => [[]]
  | x :: xs =>
    if x = c then [] :: jsSplit c xs
    else
      match jsSplit c xs with
      | [] => [[x]]
      | h :: t => (x :: h) :: t

/-- JavaScript String.prototype.startsWith, as a prefix test on char
lists: the first argument is the candidate prefix. -/
def strPre : List Char → List Char → Bool
  | [], _ => true
  | _ :: _, [] => false
  | a :: as, b :: bs => a = b && strPre as bs

/-- JavaScript String.prototype.toLowerCase restricted to the ASCII
characters the scripts feed it. -/
def jsToLower (s : String) : String :=
  String.mk (s.data.map Char.toLower)

/-- JavaScript String.prototype.trim: strip leading and trailing
whitespace. -/
def jsTrim (s : String) : String :=
  String.mk (((s.data.dropWhile Char.isWhitespace).reverse.dropWhile Char.isWhitespace).reverse)

/-- JavaScript String.prototype.endsWith for a fixed suffix. -/
def jsEndsWith (s suf : String) : Bool :=
  strPre suf.data.reverse s.data.reverse

/-- One step of the scan behind the regex in extractPathParams
(api-docs-generator.ts line 112).  The second argument is the state:
none while outside a brace group, some acc (reversed body so far) while
inside one.  Inner opening braces are dropped, mirroring the final
replace of every brace character in the matched text. -/
def scanAux : List Char → Option (List Char) → List (List Char)
  | [], _ => []
  | c :: rest, none =>
    if c = '\x7b' then scanAux rest (some []) else scanAux rest none
  | c :: rest, some acc =>
    if c = '\x7d' then acc.reverse :: scanAux rest none
    else if c = '\x7b' then scanAux rest (some acc)
    else scanAux rest (some (c :: acc))

/-- The brace-group scan of extractPathParams on a whole char list. -/
def scanParams (l : List Char) : List (List Char) :=
  scanAux l none

/-- extractPathParams (api-docs-generator.ts lines 111-114): every
brace-delimited group, braces stripped, in order, duplicates kept. -/
def extractPathParams (pathStr : String) : List String :=
  (scanParams pathStr.data).map String.mk

/-- JavaScript String.prototype.includes for one character. -/
def jsIncludes (c : Char) : List Char → Bool
  | [] => false
  | x :: xs => x = c || jsIncludes c xs

/-- extractQueryParams (api-docs-generator.ts lines 119-125): empty when
the text holds no question mark; otherwise element 1 of the split on
question marks, split on ampersands, each segment cut before its first
equals sign. -/
def extractQueryParams (pathStr : String) : List String :=
  if jsIncludes '?' pathStr.data = false then []
  else
    let queryStr := ((jsSplit '?' pathStr.data).get? 1).getD []
    ((jsSplit '&' queryStr).map (fun q => ((jsSplit '=' q).headD []))).map String.mk

/-- The text emitted for one path parameter
(api-docs-generator.ts lines 32-36). -/
def pathParamBlock (param : String) : String :=
  "        - in: path\n          name: " ++ param ++
    "\n          required: true\n          type: string\n"

/-- The text emitted for one query parameter
(api-docs-generator.ts lines 43-46). -/
def queryParamBlock (param : String) : String :=
  "        - in: query\n          name: " ++ param ++
    "\n          type: string\n"

/-- generateParametersYaml (api-docs-generator.ts lines 26-51):
parameters whose name trims to nothing are passed over. -/
def generateParametersYaml (pathParams queryParams : List String) : String :=
  let y1 := pathParams.foldl
    (fun y param => if jsTrim param ≠ "" then y ++ pathParamBlock param else y) ""
  queryParams.foldl
    (fun y param => if jsTrim param ≠ "" then y ++ queryParamBlock param else y) y1

/-- The literal empty-array marker written when no parameter survives
(api-docs-generator.ts line 254). -/
def emptyParamsMarker : String :=
  "        []\n"

/-- The parameters fragment chosen in main
(api-docs-generator.ts lines 253-254). -/
def finalParamsYaml (pathParams queryParams : List String) : String :=
  let y := generateParametersYaml pathParams queryParams
  if jsTrim y ≠ "" then y else emptyParamsMarker

/-- Replace every non-overlapping occurrence of the pattern (given as
head character plus tail) by the replacement, scanning left to right:
the meaning of result.split(pattern).join(value) in the source. -/
def replaceAll (p : Char) (ps : List Char) (repl : List Char) : List Char → List Char
  | [] => []
  | c :: rest =>
    if strPre (p :: ps) (c :: rest)
    then repl ++ replaceAll p ps repl (rest.drop ps.length)
    else c :: replaceAll p ps repl rest
termination_by l => l.length
decreasing_by
  all_goals simp_wf
  all_goals omega

/-- replaceTemplateVars (api-docs-generator.ts lines 180-189): for each
variable, replace every occurrence of its doubly braced placeholder. -/
def replaceTemplateVars (template : String) (vars : List (String × String)) : String :=
  vars.foldl
    (fun result kv =>
      String.mk (replaceAll '\x7b' ('\x7b' :: kv.1.data ++ ['\x7d', '\x7d'])
        kv.2.data result.data))
    template

/-- The substituted template followed by the trailing-newline fixup of
main (api-docs-generator.ts lines 273-278). -/
def generateOutput (template : String) (vars : List (String × String)) : String :=
  let output := replaceTemplateVars template vars
  if jsEndsWith output "\n" then output else output ++ "\n"

/-- Number of newline characters at the very end of a text. -/
def trailingNewlines (s : String) : Nat :=
  (s.data.reverse.takeWhile (fun c => c = '\n')).length

/-- Modelled from the spec: parseQueryParameters as the specification
words it, taking the whole remainder after the first question mark,
splitting it on ampersands and cutting each segment before its first
equals sign. -/
def parseQueryParametersSpec (pathStr : String) : List String :=
  if jsIncludes '?' pathStr.data = false then []
  else
    let after := (pathStr.data.dropWhile (fun c => c ≠ '?')).drop 1
    ((jsSplit '&' after).map (fun q => q.takeWhile (fun c => c ≠ '='))).map String.mk

/-- A structured document value as js-yaml hands it to the scripts:
null, a scalar string, or a mapping given as an ordered association
list, the order being the iteration order of the JavaScript object. -/
inductive Yaml where
  | null : Yaml
  | str : String → Yaml
  | map : List (String × Yaml) → Yaml

/-- JavaScript truthiness on the document values of the model. -/
def isTruthy : Yaml → Bool
  | .null => false
  | .str s => s ≠ ""
  | .map _ => true

/-- Property read on a JavaScript object: the value of the first entry
with the key (keys of loaded documents are unique). -/
def lookupY (k : String) : List (String × Yaml) → Option Yaml
  | [] => none
  | kv :: rest => if kv.1 = k then some kv.2 else lookupY k rest

/-- Property assignment on an existing JavaScript object key: the entry
keeps its position and gets the new value. -/
def replaceVal (kvs : List (String × Yaml)) (k : String) (v : Yaml) : List (String × Yaml) :=
  kvs.map (fun kv => if kv.1 = k then (k, v) else kv)

/-- Property assignment when the object may lack the key: an existing
entry is updated in place, otherwise the entry is appended. -/
def upsertY (kvs : List (String × Yaml)) (k : String) (v : Yaml) : List (String × Yaml) :=
  if (lookupY k kvs).isSome then replaceVal kvs k v else kvs ++ [(k, v)]

/-- encodeJsonPointer (api-docs-update.ts lines 50-52): every slash
becomes the two characters tilde then one. -/
def encodeJsonPointer (s : String) : String :=
  String.mk (s.data.flatMap (fun c => if c = '/' then ['~', '1'] else [c]))

/-- Split a path text on slashes and drop empty segments, the segment
view used to model the node path module. -/
def splitPath (s : String) : List String :=
  ((jsSplit '/' s.data).map String.mk).filter (fun seg => seg ≠ "")

/-- Resolution of dot and dot-dot segments, as node path normalization
does on an absolute path. -/
def normSegs (segs : List String) : List String :=
  segs.foldl
    (fun acc seg =>
      if seg = "." then acc
      else if seg = ".." then acc.dropLast
      else acc ++ [seg]) []

/-- True when the text starts with a slash. -/
def isAbsolutePath (s : String) : Bool :=
  match s.data with
  | '/' :: _ => true
  | _ => false

/-- node path.resolve against a current working directory given as
normalized absolute segments, returned as segments. -/
def resolveSegs (cwd : List String) (p : String) : List String :=
  if isAbsolutePath p then normSegs (splitPath p)
  else normSegs (cwd ++ splitPath p)

/-- Render absolute segments back to a path text. -/
def joinAbs (segs : List String) : String :=
  if segs = [] then "/" else String.join (segs.map (fun seg => "/" ++ seg))

/-- node path.resolve as a text-to-text function. -/
def nodeResolve (cwd : List String) (p : String) : String :=
  joinAbs (resolveSegs cwd p)

/-- Length of the common segment prefix of two segment lists. -/
def commonLen : List String → List String → Nat
  | a :: as, b :: bs => if a = b then commonLen as bs + 1 else 0
  | _, _ => 0

/-- node path.relative: resolve both arguments, strip the common
segment prefix, climb with dot-dot for what is left of the first and
descend into what is left of the second. -/
def nodeRelative (cwd : List String) (p q : String) : String :=
  let ps := resolveSegs cwd p
  let qs := resolveSegs cwd q
  let c := commonLen ps qs
  String.intercalate "/" (List.replicate (ps.length - c) ".." ++ qs.drop c)

/-- getRelativePath (api-docs-update.ts lines 57-66): resolve both
texts, return the file text unchanged when the resolved file does not
start with the resolved base as a character prefix, else the dot-slash
prefixed relative path. -/
def getRelativePath (cwd : List String) (filePath baseDir : String) : String :=
  let realFilePath := nodeResolve cwd filePath
  let realBaseDir := nodeResolve cwd baseDir
  if strPre realBaseDir.data realFilePath.data = false then filePath
  else "./" ++ nodeRelative cwd realBaseDir realFilePath

/-- Segment-wise prefix test: the first list is an initial run of the
second. -/
def segsPre : List String → List String → Bool
  | [], _ => true
  | _ :: _, [] => false
  | a :: as, b :: bs => a = b && segsPre as bs

/-- Modelled from the spec: relativeReference as the specification
words it, where being under the base directory is containment in the
directory subtree, segment by segment. -/
def relativeReferenceSpec (cwd : List String) (filePath baseDir : String) : String :=
  let fileSegs := resolveSegs cwd filePath
  let baseSegs := resolveSegs cwd baseDir
  if segsPre baseSegs fileSegs = false then filePath
  else "./" ++ nodeRelative cwd (joinAbs baseSegs) (joinAbs fileSegs)

/-- Read result of one document: the parsed value, or a read or parse
failure carrying its message. -/
def LoadResult : Type := Except String Yaml

/-- loadYaml (api-docs-update.ts lines 71-79): a failure is caught and
reported and the empty object is returned instead; a falsy parse result
also becomes the empty object. -/
def loadYaml (r : Except String Yaml) : Yaml :=
  match r with
  | .error _ => .map []
  | .ok y => if isTruthy y then y else .map []

/-- The nine recognized HTTP method tokens
(api-docs-update.ts line 185). -/
def validMethods : List String :=
  ["get", "post", "put", "patch", "delete", "head", "options", "trace", "connect"]

/-- The survival test applied to a method key in the rebuild loop
(api-docs-update.ts lines 179-188): keys opening with the extension or
reference markers are skipped, then keys whose lower case form is not a
recognized method token are skipped. -/
def keepMethod (method : String) : Bool :=
  strPre "x-".data method.data = false &&
  strPre "$".data method.data = false &&
  validMethods.contains (jsToLower method)

/-- The reference text built in the rebuild loop
(api-docs-update.ts line 197). -/
def buildRefStr (relPath apiPath method : String) : String :=
  relPath ++ "#/paths/" ++ encodeJsonPointer apiPath ++ "/" ++ method

/-- The paths mapping of a loaded path file when it is a non-null
object (api-docs-update.ts line 166), none otherwise. -/
def getPathsMap (y : Yaml) : Option (List (String × Yaml)) :=
  match y with
  | .map kvs =>
    match lookupY "paths" kvs with
    | some (.map p) => some p
    | _ => none
  | _ => none

/-- The surviving (apiPath, method, reference) pairs one discovered
file contributes, in loop order (api-docs-update.ts lines 162-213). -/
def fileTriples (cwd : List String) (baseDir : String)
    (filePath : String) (load : Except String Yaml) : List (String × String × String) :=
  match getPathsMap (loadYaml load) with
  | none => []
  | some pmap =>
    pmap.flatMap (fun ap =>
      match ap.2 with
      | .map pathObj =>
        (pathObj.filter (fun mkv => keepMethod mkv.1)).map
          (fun mkv => (ap.1, mkv.1, buildRefStr (getRelativePath cwd filePath baseDir) ap.1 mkv.1))
      | _ => [])

/-- All surviving triples of an update run, in traversal order. -/
def triples (cwd : List String) (baseDir : String)
    (files : List (String × Except String Yaml)) : List (String × String × String) :=
  files.flatMap (fun f => fileTriples cwd baseDir f.1 f.2)

/-- The reference object stored for one method
(api-docs-update.ts lines 207-209). -/
def refObj (ref : String) : Yaml :=
  .map [("$ref", .str ref)]

/-- Writing one reference into the in-memory paths object
(api-docs-update.ts lines 202-209): a missing or falsy path entry is
first reset to an empty object (appended when missing, updated in place
when present), then the method key is assigned.  A truthy non-object
path entry cannot arise from the empty starting object. -/
def setRef (paths : List (String × Yaml)) (t : String × String × String) : List (String × Yaml) :=
  match lookupY t.1 paths with
  | none => paths ++ [(t.1, .map [(t.2.1, refObj t.2.2)])]
  | some (.map inner) => replaceVal paths t.1 (.map (upsertY inner t.2.1 (refObj t.2.2)))
  | some _ => replaceVal paths t.1 (.map [(t.2.1, refObj t.2.2)])

/-- The rebuilt paths object of an update run: every surviving triple
written in order, starting from the cleared empty object. -/
def buildPaths (cwd : List String) (baseDir : String)
    (files : List (String × Except String Yaml)) : List (String × Yaml) :=
  (triples cwd baseDir files).foldl setRef []

/-- The clear step on the entries of the loaded main document
(api-docs-update.ts lines 122-128): a truthy paths entry is deleted and
an empty object re-added at the end; a falsy paths entry is overwritten
in place, the delete being skipped; a missing paths entry is appended. -/
def clearPaths (kvs : List (String × Yaml)) : List (String × Yaml) :=
  match lookupY "paths" kvs with
  | some v =>
    if isTruthy v then
      (kvs.filter (fun kv => kv.1 ≠ "paths")) ++ [("paths", .map [])]
    else replaceVal kvs "paths" (.map [])
  | none => kvs ++ [("paths", .map [])]

/-- Outcome of one modelled update run: a fatal abort, or normal
completion carrying the main document as last written and the count of
references written. -/
inductive RunResult where
  | fatal : RunResult
  | ok : List (String × Yaml) → Nat → RunResult

/-- The document carried by a completed run, the empty document for a
fatal one. -/
def docOf : RunResult → List (String × Yaml)
  | .fatal => []
  | .ok d _ => d

/-- The update run of api-docs-update.ts main (lines 102-231) from the
point where the main document text is read: the file tree is given by
the read result of the main document and the discovered path files in
traversal order, and the two save operations are given by success
flags.  Reading the main document back between the phases returns
exactly what the clear phase wrote, since the dump and load pair of
js-yaml preserves the document.  A main document that parses to a
scalar makes the property assignment of the clear step throw, caught as
a fatal error. -/
def runUpdate (cwd : List String) (baseDir : String) (mainLoad : Except String Yaml)
    (files : List (String × Except String Yaml)) (save1Ok save2Ok : Bool) : RunResult :=
  match loadYaml mainLoad with
  | .map kvs =>
    let cleared := clearPaths kvs
    if save1Ok = false then .fatal
    else if files.isEmpty then .ok cleared 0
    else
      let final := replaceVal cleared "paths" (.map (buildPaths cwd baseDir files))
      if save2Ok = false then .fatal
      else .ok final (triples cwd baseDir files).length
  | _ => .fatal

/-- First-seen order of the keys of a list, relative to keys already
seen. -/
def dedupFirst (seen : List String) : List String → List String
  | [] => []
  | x :: xs => if x ∈ seen then dedupFirst seen xs else x :: dedupFirst (seen ++ [x]) xs

/-- The method keys under one api path of a paths object, empty when
the entry is missing or not an object. -/
def innerKeys (paths : List (String × Yaml)) (ap : String) : List String :=
  match lookupY ap paths with
  | some (.map inner) => inner.map (fun kv => kv.1)
  | _ => []

/-- The reference entry of a paths object at one api path and method
key, none when absent. -/
def lookupRef (paths : List (String × Yaml)) (ap method : String) : Option Yaml :=
  match lookupY ap paths with
  | some (.map inner) => lookupY method inner
  | _ => none

/-- The reference of the last surviving triple at one api path and
method key, none when no triple hits the pair. -/
def lastRefOf (ts : List (String × String × String)) (ap method : String) : Option Yaml :=
  ((ts.filter (fun t => t.1 = ap && t.2.1 = method)).map (fun t => refObj t.2.2)).getLast?

/-- A directory tree as the walk sees it: a plain file, a directory
with its listing in readdir order, or a directory whose readdir call
fails with the given error code. -/
inductive FsNode where
  | file : String → FsNode
  | dir : String → List FsNode → FsNode
  | baddir : String → String → FsNode

/-- Name of a node. -/
def FsNode.name : FsNode → String
  | .file n => n
  | .dir n _ => n
  | .baddir n _ => n

/-- True for names carrying a recognized document extension
(api-docs-update.ts line 34). -/
def isYamlName (n : String) : Bool :=
  jsEndsWith n ".yaml" || jsEndsWith n ".yml"

/-- The message logged for a directory read failure
(api-docs-update.ts line 40), abstracting the error text by its code. -/
def walkErrMsg (code : String) : String :=
  "Error reading directory: " ++ code

mutual
/-- walkDir (api-docs-update.ts lines 24-45) on one node standing for
the directory at the given path: the collected file paths paired with
the messages logged to standard error.  A read failure is caught; a
non ENOENT code is logged; either way the walk returns normally. -/
def walkNode (dirPath : String) : FsNode → List String × List String
  | .file _ => ([], [])
  | .baddir _ code => ([], if code = "ENOENT" then [] else [walkErrMsg code])
  | .dir _ children => walkChildren dirPath children
termination_by n => sizeOf n

/-- The forEach body of walkDir over a directory listing: files with a
recognized extension are pushed, directories are walked recursively
under the joined path. -/
def walkChildren (dirPath : String) : List FsNode → List String × List String
  | [] => ([], [])
  | c :: cs =>
    let r :=
      match c with
      | .file nm => ((if isYamlName nm then [dirPath ++ "/" ++ nm] else []), ([] : List String))
      | other => walkNode (dirPath ++ "/" ++ other.name) other
    let rest := walkChildren dirPath cs
    (r.1 ++ rest.1, r.2 ++ rest.2)
termination_by l => sizeOf l
end

mutual
/-- Modelled from the spec: the walk as the specification words it,
where a filesystem error other than a missing root is surfaced to the
caller instead of being swallowed. -/
def walkSurfacedNode (dirPath : String) : FsNode → Except String (List String)
  | .file _ => .ok []
  | .baddir _ code => .error code
  | .dir _ children => walkSurfacedChildren dirPath children
termination_by n => sizeOf n

/-- Modelled from the spec: the per-listing step of the surfaced walk,
propagating the first error met. -/
def walkSurfacedChildren (dirPath : String) : List FsNode → Except String (List String)
  | [] => .ok []
  | c :: cs =>
    let rc : Except String (List String) :=
      match c with
      | .file nm => .ok (if isYamlName nm then [dirPath ++ "/" ++ nm] else [])
      | other => walkSurfacedNode (dirPath ++ "/" ++ other.name) other
    match rc with
    | .error e => .error e
    | .ok r =>
      match walkSurfacedChildren dirPath cs with
      | .error e => .error e
      | .ok rest => .ok (r ++ rest)
termination_by l => sizeOf l
end

/-- Modelled from the spec: the whole surfaced walk, where only a non
existent root yields the empty list without an error. -/
def walkSurfaced (dirPath : String) (root : FsNode) : Except String (List String) :=
  match root with
  | .baddir _ "ENOENT" => .ok []
  | other => walkSurfacedNode dirPath other

theorem strData_append (a b : String) : (a ++ b).data = a.data ++ b.data := by
  cases a
  cases b
  rfl

theorem strPre_append_self (l r : List Char) : strPre l (l ++ r) = true := by
  induction l with
  | nil => rfl
  | cons c cs ih => simp [strPre, ih]

theorem strPre_refl (l : List Char) : strPre l l = true := by
  have h := strPre_append_self l []
  simpa using h

/-- C2: the claim that the generated stub output always ends with
exactly one trailing newline is false: a template already ending with
two newlines and needing no substitution keeps both of them. -/
theorem generateOutput_trailing_newline_not_unique :
    trailingNewlines (generateOutput "a\n\n" []) ≠ 1 := by decide

/-- C2 (amended): for every template text and every substitution list
the generated stub output ends with at least one newline character; the
fixup only appends one when the substituted template does not already
end with one, so several trailing newlines can survive. -/
theorem generateOutput_endsWith_newline (template : String) (vars : List (String × String)) :
    jsEndsWith (generateOutput template vars) "\n" = true := by
  unfold generateOutput
  cases h : jsEndsWith (replaceTemplateVars template vars) "\n" with
  | true => simp [h]
  | false =>
    simp only [h, Bool.false_eq_true, if_false]
    unfold jsEndsWith
    rw [strData_append]
    simp [strPre]

theorem scanAux_body (x : List Char) : ∀ r acc : List Char,
    (∀ c ∈ x, c ≠ '\x7b' ∧ c ≠ '\x7d') →
    scanAux (x ++ '\x7d' :: r) (some acc) = (acc.reverse ++ x) :: scanAux r none := by
  induction x with
  | nil =>
    intro r acc _
    simp [scanAux]
  | cons c cs ih =>
    intro r acc h
    have hc := h c (List.mem_cons_self c cs)
    have hcs : ∀ d ∈ cs, d ≠ '\x7b' ∧ d ≠ '\x7d' := fun d hd => h d (List.mem_cons_of_mem c hd)
    simp only [List.cons_append, scanAux, hc.1, hc.2, if_false]
    simp only [List.append_eq]
    rw [ih r (c :: acc) hcs]
    simp

theorem scanParams_layout : ∀ xs : List (List Char),
    (∀ x ∈ xs, ∀ c ∈ x, c ≠ '\x7b' ∧ c ≠ '\x7d') →
    scanParams (xs.flatMap (fun x => '/' :: '\x7b' :: (x ++ ['\x7d']))) = xs := by
  intro xs
  induction xs with
  | nil =>
    intro _
    rfl
  | cons x rest ih =>
    intro h
    have hx : ∀ c ∈ x, c ≠ '\x7b' ∧ c ≠ '\x7d' := h x (List.mem_cons_self x rest)
    have hrest : ∀ y ∈ rest, ∀ c ∈ y, c ≠ '\x7b' ∧ c ≠ '\x7d' :=
      fun y hy => h y (List.mem_cons_of_mem x hy)
    rw [List.flatMap_cons]
    have hshape : ('/' :: '\x7b' :: (x ++ ['\x7d'])) ++
        rest.flatMap (fun y => '/' :: '\x7b' :: (y ++ ['\x7d'])) =
        '/' :: '\x7b' :: (x ++ '\x7d' ::
          rest.flatMap (fun y => '/' :: '\x7b' :: (y ++ ['\x7d']))) := by
      simp
    rw [hshape]
    show scanAux ('/' :: '\x7b' :: (x ++ '\x7d' ::
      rest.flatMap (fun y => '/' :: '\x7b' :: (y ++ ['\x7d'])))) none = x :: rest
    simp only [scanAux, reduceIte, Char.reduceEq]
    rw [scanAux_body x _ [] hx]
    simp only [List.reverse_nil, List.nil_append, List.cons.injEq, true_and]
    exact ih hrest

/-- C7: extractPathParams returns the brace-delimited substrings with
braces stripped: the two sample paths of the claim evaluate as stated,
and over any list of brace-free parameter bodies laid out as a path the
scan returns exactly those bodies, in order, duplicates preserved. -/
theorem extractPathParams_spec :
    extractPathParams "/a/\x7bx\x7d/b/\x7by\x7d" = ["x", "y"] ∧
    extractPathParams "/a/\x7b\x7d/b" = [""] ∧
    ∀ xs : List (List Char), (∀ x ∈ xs, ∀ c ∈ x, c ≠ '\x7b' ∧ c ≠ '\x7d') →
      scanParams (xs.flatMap (fun x => '/' :: '\x7b' :: (x ++ ['\x7d']))) = xs :=
  ⟨by decide, by decide, scanParams_layout⟩

/-- C7 witness: the general clause applied to two equal one-letter
bodies, showing order kept and duplicates preserved. -/
theorem extractPathParams_spec_witness :
    scanParams ([['x'], ['x']].flatMap (fun x => '/' :: '\x7b' :: (x ++ ['\x7d']))) = [['x'], ['x']] :=
  extractPathParams_spec.2.2 [['x'], ['x']] (by decide)

theorem jsSplit_length_pos (c : Char) (l : List Char) : 1 ≤ (jsSplit c l).length := by
  induction l with
  | nil => simp [jsSplit]
  | cons x xs ih =>
    by_cases hx : x = c
    · simp [jsSplit, hx]
    · cases hs : jsSplit c xs with
      | nil => rw [hs] at ih; simp at ih
      | cons h t => simp [jsSplit, hx, hs]

theorem jsSplit_of_not_includes (c : Char) (l : List Char)
    (h : jsIncludes c l = false) : jsSplit c l = [l] := by
  induction l with
  | nil => rfl
  | cons x xs ih =>
    simp only [jsIncludes, Bool.or_eq_false_iff, decide_eq_false_iff_not] at h
    rw [jsSplit, if_neg h.1, ih h.2]

theorem jsSplit_first (c : Char) : ∀ a b : List Char, jsIncludes c a = false →
    jsSplit c (a ++ c :: b) = a :: jsSplit c b := by
  intro a
  induction a with
  | nil =>
    intro b _
    simp [jsSplit]
  | cons x xs ih =>
    intro b h
    simp only [jsIncludes, Bool.or_eq_false_iff, decide_eq_false_iff_not] at h
    rw [List.cons_append, jsSplit, if_neg h.1, ih b h.2]

theorem jsSplit_headD (c : Char) (q : List Char) :
    (jsSplit c q).headD [] = q.takeWhile (fun x => x ≠ c) := by
  induction q with
  | nil => rfl
  | cons x xs ih =>
    by_cases hx : x = c
    · simp [jsSplit, hx, List.takeWhile]
    · cases hs : jsSplit c xs with
      | nil =>
        have := jsSplit_length_pos c xs
        rw [hs] at this
        simp at this
      | cons h t =>
        rw [hs] at ih
        simp only [List.headD_cons] at ih
        simp [jsSplit, hx, hs, List.takeWhile, ih]

theorem jsSplit_length_cons (c x : Char) (xs : List Char) :
    (jsSplit c (x :: xs)).length =
      if x = c then (jsSplit c xs).length + 1 else (jsSplit c xs).length := by
  by_cases hx : x = c
  · simp [jsSplit, hx]
  · cases hs : jsSplit c xs with
    | nil =>
      have := jsSplit_length_pos c xs
      rw [hs] at this
      simp at this
    | cons hd t => simp [jsSplit, hx, hs]

theorem jsSplit_length_one (c : Char) : ∀ l : List Char,
    (jsSplit c l).length = 1 → jsIncludes c l = false := by
  intro l
  induction l with
  | nil =>
    intro _
    rfl
  | cons x xs ih =>
    intro h
    rw [jsSplit_length_cons] at h
    by_cases hx : x = c
    · rw [if_pos hx] at h
      have := jsSplit_length_pos c xs
      omega
    · rw [if_neg hx] at h
      simp [jsIncludes, hx, ih h]

theorem one_sep_decomp (c : Char) : ∀ l : List Char,
    (jsSplit c l).length ≤ 2 → jsIncludes c l = true →
    ∃ a b, l = a ++ c :: b ∧ jsIncludes c a = false ∧ jsIncludes c b = false := by
  intro l
  induction l with
  | nil =>
    intro _ hinc
    exact absurd hinc (by simp [jsIncludes])
  | cons x xs ih =>
    intro hlen hinc
    rw [jsSplit_length_cons] at hlen
    by_cases hx : x = c
    · refine ⟨[], xs, by simp [hx], rfl, ?_⟩
      rw [if_pos hx] at hlen
      have h1 := jsSplit_length_pos c xs
      exact jsSplit_length_one c xs (by omega)
    · have hxs : jsIncludes c xs = true := by
        simp only [jsIncludes, Bool.or_eq_true_iff, decide_eq_true_iff] at hinc
        tauto
      rw [if_neg hx] at hlen
      obtain ⟨a, b, hab, ha, hb⟩ := ih hlen hxs
      refine ⟨x :: a, b, by simp [hab], ?_, hb⟩
      simp [jsIncludes, hx, ha]

theorem dropWhile_skip (c : Char) : ∀ a l : List Char, jsIncludes c a = false →
    (a ++ l).dropWhile (fun x => x ≠ c) = l.dropWhile (fun x => x ≠ c) := by
  intro a
  induction a with
  | nil =>
    intro l _
    rfl
  | cons x xs ih =>
    intro l h
    simp only [jsIncludes, Bool.or_eq_false_iff, decide_eq_false_iff_not] at h
    rw [List.cons_append, List.dropWhile_cons]
    simp only [ne_eq, h.1, not_false_eq_true, decide_eq_true_eq, if_pos]
    exact ih l h.2

/-- C8 (amended): when the raw path holds at most one question mark,
exactly the bound the interactive validation enforces, the query
parameter extraction agrees with the claim; in general the code takes
the text between the first and second question mark, not everything
after the first. -/
theorem extractQueryParams_spec (s : String)
    (h : (jsSplit '?' s.data).length ≤ 2) :
    extractQueryParams s = parseQueryParametersSpec s := by
  cases hinc : jsIncludes '?' s.data with
  | false => simp [extractQueryParams, parseQueryParametersSpec, hinc]
  | true =>
    obtain ⟨a, b, hab, ha, hb⟩ := one_sep_decomp '?' s.data h hinc
    unfold extractQueryParams parseQueryParametersSpec
    simp only [hinc, Bool.true_eq_false, if_false]
    rw [hab, jsSplit_first '?' a b ha, jsSplit_of_not_includes '?' b hb,
      dropWhile_skip '?' a ('?' :: b) ha]
    have hdw : List.dropWhile (fun x => x ≠ '?') ('?' :: b) = '?' :: b := by
      simp [List.dropWhile_cons]
    rw [hdw]
    simp only [List.get?_eq_getElem?, List.getElem?_cons_succ, List.getElem?_cons_zero,
      Option.getD_some, List.drop_succ_cons, List.drop_zero, jsSplit_headD]

/-- C8: the claim that everything after the first question mark is the
query text is false: with two question marks the code keeps only the
text between them. -/
theorem extractQueryParams_counterexample :
    extractQueryParams "a?x?y=1" ≠ parseQueryParametersSpec "a?x?y=1" := by decide

/-- C8 witness: a single-question-mark path satisfies the bound and the
two readings agree on it. -/
theorem extractQueryParams_spec_witness :
    (jsSplit '?' ("/a?x=1&y" : String).data).length ≤ 2 ∧
    extractQueryParams "/a?x=1&y" = parseQueryParametersSpec "/a?x=1&y" :=
  ⟨by decide, extractQueryParams_spec "/a?x=1&y" (by decide)⟩

theorem paramFold_filter (block : String → String) : ∀ (l : List String) (init : String),
    l.foldl (fun y param => if jsTrim param ≠ "" then y ++ block param else y) init =
      (l.filter (fun param => jsTrim param ≠ "")).foldl
        (fun y param => if jsTrim param ≠ "" then y ++ block param else y) init := by
  intro l
  induction l with
  | nil =>
    intro init
    rfl
  | cons p rest ih =>
    intro init
    rw [List.foldl_cons, List.filter_cons]
    by_cases hp : jsTrim p ≠ ""
    · rw [if_pos hp, if_pos (by simpa using hp), List.foldl_cons, if_pos hp]
      exact ih (init ++ block p)
    · rw [if_neg hp, if_neg (by simpa using hp)]
      exact ih init

theorem paramFold_blank (block : String → String) : ∀ (l : List String) (init : String),
    (∀ p ∈ l, jsTrim p = "") →
    l.foldl (fun y param => if jsTrim param ≠ "" then y ++ block param else y) init = init := by
  intro l
  induction l with
  | nil =>
    intro init _
    rfl
  | cons p rest ih =>
    intro init h
    have hp := h p (List.mem_cons_self p rest)
    rw [List.foldl_cons, if_neg (by simp [hp])]
    exact ih init (fun q hq => h q (List.mem_cons_of_mem p hq))

/-- C10: parameters whose name trims to nothing are dropped from the
emitted fragment, so the fragment equals the one built from the
non-blank names only; when every name is blank the literal empty-array
marker is emitted; in particular the empty-string parameter parsed from
an empty brace pair never reaches the output. -/
theorem blank_params_omitted (pathParams queryParams : List String) :
    (generateParametersYaml pathParams queryParams =
      generateParametersYaml (pathParams.filter (fun p => jsTrim p ≠ ""))
        (queryParams.filter (fun p => jsTrim p ≠ ""))) ∧
    ((∀ p ∈ pathParams, jsTrim p = "") → (∀ p ∈ queryParams, jsTrim p = "") →
      finalParamsYaml pathParams queryParams = emptyParamsMarker) ∧
    finalParamsYaml (extractPathParams "/a/\x7b\x7d/b") [] = emptyParamsMarker := by
  refine ⟨?_, ?_, by decide⟩
  · unfold generateParametersYaml
    rw [paramFold_filter pathParamBlock pathParams "",
      paramFold_filter queryParamBlock queryParams _]
  · intro hp hq
    unfold finalParamsYaml generateParametersYaml
    rw [paramFold_blank pathParamBlock pathParams "" hp,
      paramFold_blank queryParamBlock queryParams "" hq]
    rw [if_neg (by decide)]

/-- C10 witness: lists holding only blank names produce the literal
empty-array marker. -/
theorem blank_params_omitted_witness :
    finalParamsYaml [""] [" "] = emptyParamsMarker :=
  (blank_params_omitted [""] [" "]).2.1 (by decide) (by decide)

theorem segsPre_exists : ∀ a b : List String, segsPre a b = true → ∃ r, b = a ++ r := by
  intro a
  induction a with
  | nil =>
    intro b _
    exact ⟨b, rfl⟩
  | cons x xs ih =>
    intro b h
    cases b with
    | nil => simp [segsPre] at h
    | cons y ys =>
      simp only [segsPre, Bool.and_eq_true, decide_eq_true_iff] at h
      obtain ⟨r, hr⟩ := ih ys h.2
      exact ⟨r, by rw [hr, h.1, List.cons_append]⟩

theorem joinAbs_data_cons (y : String) (ys : List String) :
    (joinAbs (y :: ys)).data = ((y :: ys).map (fun s => '/' :: s.data)).flatten := by
  simp only [joinAbs, if_neg (List.cons_ne_nil y ys)]
  rw [String.join_eq]
  show ((List.map (fun seg => "/" ++ seg) (y :: ys)).map String.data).flatten = _
  rw [List.map_map]
  congr 1

theorem joinAbs_strPre (bs fs : List String) (h : segsPre bs fs = true) :
    strPre (joinAbs bs).data (joinAbs fs).data = true := by
  obtain ⟨r, hr⟩ := segsPre_exists bs fs h
  subst hr
  cases bs with
  | nil =>
    cases r with
    | nil => exact strPre_refl _
    | cons z zs =>
      rw [List.nil_append, joinAbs_data_cons z zs]
      show strPre ['/'] _ = true
      rw [List.map_cons, List.flatten_cons]
      simp [strPre]
  | cons y ys =>
    cases r with
    | nil =>
      rw [List.append_nil]
      exact strPre_refl _
    | cons z zs =>
      rw [joinAbs_data_cons y ys]
      rw [show (y :: ys) ++ z :: zs = y :: (ys ++ z :: zs) from rfl]
      rw [joinAbs_data_cons y (ys ++ z :: zs)]
      rw [show (List.map (fun s => '/' :: s.data) (y :: (ys ++ z :: zs))).flatten =
          (List.map (fun s => '/' :: s.data) (y :: ys)).flatten ++
          (List.map (fun s => '/' :: s.data) (z :: zs)).flatten from by
        simp [List.flatten_append]]
      exact strPre_append_self _ _

/-- C9 (amended): computing the relative reference resolves both
arguments; when the resolved file does not start with the resolved base
directory as a character prefix the file path is returned unchanged,
and whenever the file genuinely lies under the base directory, segment
by segment, the result is the relative path prefixed with dot-slash.
The not-under branch of the claim had to be weakened to the character
prefix test, which also admits sibling directories sharing a name
prefix. -/
theorem getRelativePath_spec (cwd : List String) (filePath baseDir : String) :
    (strPre (nodeResolve cwd baseDir).data (nodeResolve cwd filePath).data = false →
      getRelativePath cwd filePath baseDir = filePath) ∧
    (segsPre (resolveSegs cwd baseDir) (resolveSegs cwd filePath) = true →
      getRelativePath cwd filePath baseDir =
        "./" ++ nodeRelative cwd (nodeResolve cwd baseDir) (nodeResolve cwd filePath)) := by
  constructor
  · intro h
    simp [getRelativePath, h]
  · intro h
    have hpre : strPre (nodeResolve cwd baseDir).data (nodeResolve cwd filePath).data = true :=
      joinAbs_strPre _ _ h
    simp [getRelativePath, hpre]

/-- C9: the claim is false at a sibling directory whose name extends
the base directory name: the file is not under the base, so the claim
returns it unchanged, but the code takes the character-prefix branch
and emits a dot-slash relative path that climbs out of the base. -/
theorem getRelativePath_counterexample :
    getRelativePath [] "/a/bc/d" "/a/b" = "./../bc/d" ∧
    relativeReferenceSpec [] "/a/bc/d" "/a/b" = "/a/bc/d" ∧
    ("./../bc/d" : String) ≠ "/a/bc/d" :=
  ⟨by decide, by decide, by decide⟩

/-- C9 witness: a file directly under the base directory takes the
dot-slash relative branch. -/
theorem getRelativePath_spec_witness :
    getRelativePath [] "/a/b/c.yaml" "/a/b" =
      "./" ++ nodeRelative [] (nodeResolve [] "/a/b") (nodeResolve [] "/a/b/c.yaml") :=
  (getRelativePath_spec [] "/a/b/c.yaml" "/a/b").2 (by decide)

/-- First-some choice on optional document values. -/
def orElseO (a b : Option Yaml) : Option Yaml :=
  match a with
  | some x => some x
  | none => b

theorem lookupY_append (k : String) : ∀ l1 l2 : List (String × Yaml),
    lookupY k (l1 ++ l2) = orElseO (lookupY k l1) (lookupY k l2) := by
  intro l1 l2
  induction l1 with
  | nil => rfl
  | cons kv rest ih =>
    by_cases hk : kv.1 = k
    · simp [lookupY, hk, orElseO]
    · simp [lookupY, hk, ih]

theorem replaceVal_cons (kv : String × Yaml) (rest : List (String × Yaml)) (k : String) (v : Yaml) :
    replaceVal (kv :: rest) k v = (if kv.1 = k then (k, v) else kv) :: replaceVal rest k v := rfl

theorem lookupY_replaceVal_self (k : String) (v : Yaml) : ∀ l : List (String × Yaml),
    (lookupY k l).isSome = true → lookupY k (replaceVal l k v) = some v := by
  intro l
  induction l with
  | nil =>
    intro h
    simp [lookupY] at h
  | cons kv rest ih =>
    intro h
    rw [replaceVal_cons]
    by_cases hk : kv.1 = k
    · rw [if_pos hk, lookupY, if_pos rfl]
    · rw [if_neg hk, lookupY, if_neg hk]
      rw [lookupY, if_neg hk] at h
      exact ih h

theorem lookupY_replaceVal_other (k q : String) (v : Yaml) (hq : q ≠ k) :
    ∀ l : List (String × Yaml), lookupY q (replaceVal l k v) = lookupY q l := by
  intro l
  induction l with
  | nil => rfl
  | cons kv rest ih =>
    rw [replaceVal_cons]
    by_cases hk : kv.1 = k
    · have h1 : ¬(k = q) := fun hh => hq hh.symm
      have h2 : ¬(kv.1 = q) := fun hh => hq (by rw [← hh, hk])
      rw [if_pos hk, lookupY, if_neg h1, lookupY, if_neg h2, ih]
    · by_cases hkq : kv.1 = q
      · rw [if_neg hk, lookupY, if_pos hkq, lookupY, if_pos hkq]
      · rw [if_neg hk, lookupY, if_neg hkq, lookupY, if_neg hkq, ih]

theorem lookupY_none_not_mem (k : String) : ∀ l : List (String × Yaml),
    lookupY k l = none → ∀ kv ∈ l, kv.1 ≠ k := by
  intro l
  induction l with
  | nil =>
    intro _ kv hkv
    simp at hkv
  | cons kv0 rest ih =>
    intro h kv hkv
    rw [lookupY] at h
    by_cases hk : kv0.1 = k
    · rw [if_pos hk] at h
      exact absurd h (by simp)
    · rw [if_neg hk] at h
      rcases List.mem_cons.mp hkv with heq | hmem
      · rw [heq]; exact hk
      · exact ih h kv hmem

theorem lookupY_isSome_iff_mem (k : String) : ∀ l : List (String × Yaml),
    (lookupY k l).isSome = true ↔ k ∈ l.map Prod.fst := by
  intro l
  induction l with
  | nil => simp [lookupY]
  | cons kv rest ih =>
    by_cases hk : kv.1 = k
    · simp [lookupY, hk]
    · simp only [lookupY, if_neg hk, List.map_cons, List.mem_cons, ih]
      constructor
      · intro h
        exact Or.inr h
      · intro h
        rcases h with h | h
        · exact absurd h.symm hk
        · exact h

theorem replaceVal_keys (k : String) (v : Yaml) (l : List (String × Yaml)) :
    (replaceVal l k v).map Prod.fst = l.map Prod.fst := by
  induction l with
  | nil => rfl
  | cons kv rest ih =>
    rw [replaceVal_cons]
    by_cases hk : kv.1 = k
    · simp only [if_pos hk, List.map_cons, ih]
      rw [hk]
    · simp only [if_neg hk, List.map_cons, ih]

theorem lookupY_upsertY_self (k : String) (v : Yaml) (l : List (String × Yaml)) :
    lookupY k (upsertY l k v) = some v := by
  unfold upsertY
  by_cases h : (lookupY k l).isSome = true
  · rw [if_pos h]
    exact lookupY_replaceVal_self k v l h
  · rw [if_neg h]
    rw [lookupY_append]
    have hnone : lookupY k l = none := by
      cases hl : lookupY k l with
      | none => rfl
      | some x => rw [hl] at h; simp at h
    rw [hnone]
    simp [orElseO, lookupY]

theorem lookupY_upsertY_other (k q : String) (v : Yaml) (l : List (String × Yaml)) (hq : q ≠ k) :
    lookupY q (upsertY l k v) = lookupY q l := by
  unfold upsertY
  by_cases h : (lookupY k l).isSome = true
  · rw [if_pos h]
    exact lookupY_replaceVal_other k q v hq l
  · rw [if_neg h]
    rw [lookupY_append]
    cases hl : lookupY q l with
    | none =>
      have h1 : ¬(k = q) := fun hh => hq hh.symm
      simp [orElseO, lookupY, h1]
    | some x => simp [orElseO]

theorem upsertY_keys (k : String) (v : Yaml) (l : List (String × Yaml)) :
    (upsertY l k v).map Prod.fst =
      if k ∈ l.map Prod.fst then l.map Prod.fst else l.map Prod.fst ++ [k] := by
  unfold upsertY
  by_cases h : (lookupY k l).isSome = true
  · rw [if_pos h, replaceVal_keys, if_pos ((lookupY_isSome_iff_mem k l).mp h)]
  · have hmem : k ∉ l.map Prod.fst := fun hm => h ((lookupY_isSome_iff_mem k l).mpr hm)
    rw [if_neg h, if_neg hmem]
    simp

theorem orElseO_some_absorb (a : Option Yaml) (x : Yaml) (b : Option Yaml) :
    orElseO (orElseO a (some x)) b = orElseO a (some x) := by
  cases a <;> rfl

theorem getLast?_consO (x : Yaml) (l : List Yaml) :
    (x :: l).getLast? = orElseO l.getLast? (some x) := by
  induction l generalizing x with
  | nil => rfl
  | cons y ys ih =>
    rw [List.getLast?_cons_cons, ih y]
    cases hys : ys.getLast? <;> rfl

theorem lookupY_setRef_other (s : List (String × Yaml)) (t : String × String × String)
    (ap : String) (hap : t.1 ≠ ap) : lookupY ap (setRef s t) = lookupY ap s := by
  unfold setRef
  cases hs : lookupY t.1 s with
  | none =>
    rw [lookupY_append]
    have h2 : lookupY ap [(t.1, Yaml.map [(t.2.1, refObj t.2.2)])] = none := by
      simp [lookupY, hap]
    rw [h2]
    cases h3 : lookupY ap s <;> rfl
  | some v =>
    have hq : ap ≠ t.1 := fun h => hap h.symm
    cases v with
    | map inner => exact lookupY_replaceVal_other t.1 ap _ hq s
    | null => exact lookupY_replaceVal_other t.1 ap _ hq s
    | str sv => exact lookupY_replaceVal_other t.1 ap _ hq s

theorem lookupRef_setRef_hit (s : List (String × Yaml)) (ap m r : String) :
    lookupRef (setRef s (ap, m, r)) ap m = some (refObj r) := by
  unfold setRef lookupRef
  cases hs : lookupY ap s with
  | none =>
    rw [lookupY_append, hs]
    simp [orElseO, lookupY]
  | some v =>
    have hsome : (lookupY ap s).isSome = true := by rw [hs]; rfl
    cases v with
    | map inner =>
      rw [lookupY_replaceVal_self ap _ s hsome]
      show lookupY m (upsertY inner m (refObj r)) = some (refObj r)
      exact lookupY_upsertY_self m (refObj r) inner
    | null =>
      rw [lookupY_replaceVal_self ap _ s hsome]
      simp [lookupY]
    | str sv =>
      rw [lookupY_replaceVal_self ap _ s hsome]
      simp [lookupY]

theorem lookupRef_setRef_miss (s : List (String × Yaml)) (t : String × String × String)
    (ap m : String) (hne : t.1 ≠ ap ∨ t.2.1 ≠ m) :
    lookupRef (setRef s t) ap m = lookupRef s ap m := by
  obtain ⟨t1, t2, t3⟩ := t
  simp only at hne
  by_cases hap : t1 = ap
  · subst hap
    have hm : t2 ≠ m := by tauto
    unfold setRef lookupRef
    simp only
    cases hs : lookupY t1 s with
    | none =>
      rw [lookupY_append, hs]
      have h2 : lookupY t1 [(t1, Yaml.map [(t2, refObj t3)])] =
          some (Yaml.map [(t2, refObj t3)]) := by
        simp [lookupY]
      rw [h2]
      simp [orElseO, lookupY, hm]
    | some v =>
      have hsome : (lookupY t1 s).isSome = true := by rw [hs]; rfl
      cases v with
      | map inner =>
        rw [lookupY_replaceVal_self t1 _ s hsome]
        show lookupY m (upsertY inner t2 (refObj t3)) = lookupY m inner
        exact lookupY_upsertY_other t2 m (refObj t3) inner (fun h => hm h.symm)
      | null =>
        rw [lookupY_replaceVal_self t1 _ s hsome]
        simp [lookupY, hm]
      | str sv =>
        rw [lookupY_replaceVal_self t1 _ s hsome]
        simp [lookupY, hm]
  · unfold lookupRef
    rw [lookupY_setRef_other s (t1, t2, t3) ap hap]

theorem lastRefOf_cons (t : String × String × String) (ts : List (String × String × String))
    (ap m : String) :
    lastRefOf (t :: ts) ap m =
      if (t.1 = ap && t.2.1 = m) = true then orElseO (lastRefOf ts ap m) (some (refObj t.2.2))
      else lastRefOf ts ap m := by
  unfold lastRefOf
  rw [List.filter_cons]
  by_cases hk : (decide (t.1 = ap) && decide (t.2.1 = m)) = true
  · rw [if_pos hk, List.map_cons, getLast?_consO, if_pos (by simpa using hk)]
  · rw [if_neg hk, if_neg (by simpa using hk)]

theorem lookupRef_foldl (ap m : String) : ∀ (ts : List (String × String × String))
    (s : List (String × Yaml)),
    lookupRef (ts.foldl setRef s) ap m = orElseO (lastRefOf ts ap m) (lookupRef s ap m) := by
  intro ts
  induction ts with
  | nil =>
    intro s
    simp [lastRefOf, orElseO]
  | cons t ts ih =>
    intro s
    rw [List.foldl_cons, ih (setRef s t), lastRefOf_cons]
    by_cases hk : (t.1 = ap && t.2.1 = m) = true
    · rw [if_pos hk]
      have hap : t.1 = ap := by
        simp only [Bool.and_eq_true, decide_eq_true_iff] at hk
        exact hk.1
      have hm : t.2.1 = m := by
        simp only [Bool.and_eq_true, decide_eq_true_iff] at hk
        exact hk.2
      have hhit : lookupRef (setRef s t) ap m = some (refObj t.2.2) := by
        have ht : t = (ap, m, t.2.2) := by
          obtain ⟨a, b, c⟩ := t
          simp only at hap hm ⊢
          rw [hap, hm]
        rw [ht]
        exact lookupRef_setRef_hit s ap m t.2.2
      rw [hhit, orElseO_some_absorb]
    · rw [if_neg hk]
      have hne : t.1 ≠ ap ∨ t.2.1 ≠ m := by
        simp only [Bool.and_eq_true, decide_eq_true_iff] at hk
        tauto
      rw [lookupRef_setRef_miss s t ap m hne]

/-- C4: last write wins: the final reference entry of the rebuilt paths
object at any api path and method key is exactly the reference of the
last surviving triple for that pair in traversal order, silently
overwriting earlier ones. -/
theorem last_write_wins (cwd : List String) (baseDir : String)
    (files : List (String × Except String Yaml)) (ap method : String) :
    lookupRef (buildPaths cwd baseDir files) ap method =
      lastRefOf (triples cwd baseDir files) ap method := by
  unfold buildPaths
  rw [lookupRef_foldl ap method (triples cwd baseDir files) []]
  cases h : lastRefOf (triples cwd baseDir files) ap method <;>
    simp [orElseO, lookupRef, lookupY]

theorem mem_of_getLast?O : ∀ (l : List Yaml) (x : Yaml), l.getLast? = some x → x ∈ l := by
  intro l
  induction l with
  | nil =>
    intro x hx
    simp at hx
  | cons y ys ih =>
    intro x hx
    rw [getLast?_consO] at hx
    cases hys : ys.getLast? with
    | none =>
      rw [hys] at hx
      simp only [orElseO, Option.some.injEq] at hx
      rw [← hx]
      exact List.mem_cons_self y ys
    | some z =>
      rw [hys] at hx
      simp only [orElseO, Option.some.injEq] at hx
      rw [← hx]
      exact List.mem_cons_of_mem y (ih z hys)

theorem mem_triples_keep (cwd : List String) (baseDir : String)
    (files : List (String × Except String Yaml)) (t : String × String × String)
    (ht : t ∈ triples cwd baseDir files) : keepMethod t.2.1 = true := by
  unfold triples at ht
  rw [List.mem_flatMap] at ht
  obtain ⟨f, _, hf⟩ := ht
  unfold fileTriples at hf
  cases hpm : getPathsMap (loadYaml f.2) with
  | none =>
    rw [hpm] at hf
    simp at hf
  | some pmap =>
    rw [hpm] at hf
    rw [List.mem_flatMap] at hf
    obtain ⟨ap, _, hap⟩ := hf
    cases hv : ap.2 with
    | map pathObj =>
      rw [hv] at hap
      rw [List.mem_map] at hap
      obtain ⟨mkv, hmkv, heq⟩ := hap
      rw [List.mem_filter] at hmkv
      subst heq
      exact hmkv.2
    | null =>
      rw [hv] at hap
      simp at hap
    | str sv =>
      rw [hv] at hap
      simp at hap

/-- C5: a method key reaches the rebuilt paths object only when it
passes the skip rule: it does not open with the extension marker or the
dollar sign and its lower case form is one of the nine recognized
method tokens; skipped keys never produce a reference entry. -/
theorem skip_rule (cwd : List String) (baseDir : String)
    (files : List (String × Except String Yaml)) (ap method : String)
    (h : (lookupRef (buildPaths cwd baseDir files) ap method).isSome = true) :
    strPre "x-".data method.data = false ∧ strPre "$".data method.data = false ∧
    validMethods.contains (jsToLower method) = true := by
  unfold buildPaths at h
  rw [lookupRef_foldl ap method _ []] at h
  have hL : (lastRefOf (triples cwd baseDir files) ap method).isSome = true := by
    cases hl : lastRefOf (triples cwd baseDir files) ap method with
    | none =>
      rw [hl] at h
      simp [orElseO, lookupRef, lookupY] at h
    | some x => rfl
  unfold lastRefOf at hL
  rw [Option.isSome_iff_exists] at hL
  obtain ⟨x, hx⟩ := hL
  have hmem := mem_of_getLast?O _ x hx
  rw [List.mem_map] at hmem
  obtain ⟨t, htf, _⟩ := hmem
  rw [List.mem_filter] at htf
  have hkeep := mem_triples_keep cwd baseDir files t htf.1
  have hm : t.2.1 = method := by
    have := htf.2
    simp only [Bool.and_eq_true, decide_eq_true_iff] at this
    exact this.2
  rw [hm] at hkeep
  unfold keepMethod at hkeep
  simp only [Bool.and_eq_true, decide_eq_true_iff] at hkeep
  exact ⟨hkeep.1.1, hkeep.1.2, hkeep.2⟩

/-- A one-file tree carrying a single get operation, used to exercise
the skip rule at a surviving key. -/
def filesC5 : List (String × Except String Yaml) :=
  [("paths/x.yaml", .ok (.map [("paths", .map [("/x", .map [("get", .map [])])])]))]

/-- C5 witness: the surviving get entry of a concrete one-file tree
satisfies every part of the skip rule. -/
theorem skip_rule_witness :
    strPre "x-".data ("get" : String).data = false ∧
    strPre "$".data ("get" : String).data = false ∧
    validMethods.contains (jsToLower "get") = true :=
  skip_rule [] "resource" filesC5 "/x" "get" (by decide)

/-- True exactly for the fatal outcome. -/
def isFatal : RunResult → Bool
  | .fatal => true
  | .ok _ _ => false

theorem replaceVal_append (l1 l2 : List (String × Yaml)) (k : String) (v : Yaml) :
    replaceVal (l1 ++ l2) k v = replaceVal l1 k v ++ replaceVal l2 k v := by
  unfold replaceVal
  exact List.map_append _ l1 l2

theorem replaceVal_of_not_mem (l : List (String × Yaml)) (k : String) (v : Yaml)
    (h : ∀ kv ∈ l, kv.1 ≠ k) : replaceVal l k v = l := by
  induction l with
  | nil => rfl
  | cons kv rest ih =>
    rw [replaceVal_cons, if_neg (h kv (List.mem_cons_self kv rest))]
    rw [ih (fun q hq => h q (List.mem_cons_of_mem kv hq))]

theorem replaceVal_idem (l : List (String × Yaml)) (k : String) (v : Yaml) :
    replaceVal (replaceVal l k v) k v = replaceVal l k v := by
  induction l with
  | nil => rfl
  | cons kv rest ih =>
    rw [replaceVal_cons]
    by_cases hk : kv.1 = k
    · rw [if_pos hk, replaceVal_cons, if_pos rfl, ih]
    · rw [if_neg hk, replaceVal_cons, if_neg hk, ih]

theorem clearPaths_none (kvs : List (String × Yaml)) (hl : lookupY "paths" kvs = none) :
    clearPaths kvs = kvs ++ [("paths", .map [])] := by
  unfold clearPaths
  rw [hl]

theorem clearPaths_some (kvs : List (String × Yaml)) (v : Yaml)
    (hl : lookupY "paths" kvs = some v) :
    clearPaths kvs =
      if isTruthy v = true then
        (kvs.filter (fun kv => kv.1 ≠ "paths")) ++ [("paths", .map [])]
      else replaceVal kvs "paths" (.map []) := by
  unfold clearPaths
  rw [hl]

theorem replaceVal_clearPaths (kvs : List (String × Yaml)) :
    replaceVal (clearPaths kvs) "paths" (.map []) = clearPaths kvs := by
  cases hl : lookupY "paths" kvs with
  | none =>
    rw [clearPaths_none kvs hl, replaceVal_append]
    rw [replaceVal_of_not_mem kvs "paths" _ (lookupY_none_not_mem "paths" kvs hl)]
    rfl
  | some v =>
    rw [clearPaths_some kvs v hl]
    by_cases ht : isTruthy v = true
    · rw [if_pos ht, replaceVal_append]
      have hf : ∀ kv ∈ kvs.filter (fun kv => kv.1 ≠ "paths"), kv.1 ≠ "paths" := by
        intro kv hkv
        have := (List.mem_filter.mp hkv).2
        simpa using this
      rw [replaceVal_of_not_mem _ "paths" _ hf]
      rfl
    · rw [if_neg ht]
      exact replaceVal_idem kvs "paths" (.map [])

theorem isEmpty_append_cons {α : Type} (pre : List α) (x : α) (post : List α) :
    (pre ++ x :: post).isEmpty = false := by
  cases pre <;> rfl

theorem triples_middle_error (cwd : List String) (baseDir : String)
    (pre post : List (String × Except String Yaml)) (nm e : String) :
    triples cwd baseDir (pre ++ (nm, Except.error e) :: post) =
      triples cwd baseDir (pre ++ post) := by
  unfold triples
  rw [List.flatMap_append, List.flatMap_cons, List.flatMap_append]
  have h1 : fileTriples cwd baseDir nm (Except.error e) = [] := rfl
  rw [h1]
  simp

/-- C1 (amended): a read or parse failure never aborts the run: a
failed document load is treated as the empty document, so a malformed
path file contributes nothing and the run proceeds exactly as if the
file were absent, and a failed main-document load behaves as an empty
main document; only write failures and a missing paths directory are
fatal. -/
theorem load_failures_skipped (cwd : List String) (baseDir : String)
    (m : Except String Yaml) (pre post : List (String × Except String Yaml))
    (nm e : String) (s1 : Bool) :
    runUpdate cwd baseDir m (pre ++ (nm, .error e) :: post) s1 true =
      runUpdate cwd baseDir m (pre ++ post) s1 true ∧
    runUpdate cwd baseDir (.error e) (pre ++ post) s1 true =
      runUpdate cwd baseDir (.ok (.map [])) (pre ++ post) s1 true := by
  constructor
  · unfold runUpdate
    cases hy : loadYaml m with
    | null => rfl
    | str sv => rfl
    | map kvs =>
      cases s1 with
      | false => simp
      | true =>
        simp only [Bool.true_eq_false, if_false, isEmpty_append_cons]
        cases hpp : (pre ++ post).isEmpty with
        | true =>
          have hnil : pre ++ post = [] := by
            cases pp : pre ++ post with
            | nil => rfl
            | cons a l =>
              rw [pp] at hpp
              simp [List.isEmpty] at hpp
          obtain ⟨hpre, hpost⟩ := List.append_eq_nil.mp hnil
          subst hpre
          subst hpost
          simp only [List.nil_append, List.isEmpty_cons, if_false]
          show RunResult.ok
            (replaceVal (clearPaths kvs) "paths"
              (.map (buildPaths cwd baseDir [(nm, Except.error e)]))) _ = _
          have hb : buildPaths cwd baseDir [(nm, Except.error e)] = [] := rfl
          rw [hb, replaceVal_clearPaths]
          rfl
        | false =>
          simp only [hpp, Bool.false_eq_true, if_false]
          unfold buildPaths
          rw [triples_middle_error]
  · rfl

/-- C1: the claim that any read or parse failure aborts the whole run
is false: a concrete run with a malformed path file completes normally
with the reference of the healthy file, and a run whose main document
fails to parse also completes normally. -/
theorem load_failure_not_fatal_counterexample :
    isFatal (runUpdate [] "resource" (.ok (.map [("openapi", .str "3")]))
      [("bad.yaml", .error "unexpected token"),
       ("paths/x.yaml", .ok (.map [("paths", .map [("/x", .map [("get", .map [])])])]))]
      true true) = false ∧
    isFatal (runUpdate [] "resource" (.error "bad main") filesC5 true true) = false :=
  ⟨by decide, by decide⟩

theorem dedupFirst_nil (seen : List String) : dedupFirst seen [] = [] := rfl

theorem dedupFirst_cons (seen : List String) (x : String) (xs : List String) :
    dedupFirst seen (x :: xs) =
      if x ∈ seen then dedupFirst seen xs else x :: dedupFirst (seen ++ [x]) xs := rfl

theorem setRef_keys (s : List (String × Yaml)) (t : String × String × String) :
    (setRef s t).map Prod.fst =
      if t.1 ∈ s.map Prod.fst then s.map Prod.fst else s.map Prod.fst ++ [t.1] := by
  unfold setRef
  cases hs : lookupY t.1 s with
  | none =>
    have hnm : t.1 ∉ s.map Prod.fst := by
      intro hm
      have := (lookupY_isSome_iff_mem t.1 s).mpr hm
      rw [hs] at this
      simp at this
    rw [if_neg hnm]
    simp
  | some v =>
    have hm : t.1 ∈ s.map Prod.fst := (lookupY_isSome_iff_mem t.1 s).mp (by rw [hs]; rfl)
    rw [if_pos hm]
    cases v with
    | map inner => exact replaceVal_keys _ _ _
    | null => exact replaceVal_keys _ _ _
    | str sv => exact replaceVal_keys _ _ _

theorem foldl_setRef_keys : ∀ (ts : List (String × String × String)) (s : List (String × Yaml)),
    (ts.foldl setRef s).map Prod.fst =
      s.map Prod.fst ++ dedupFirst (s.map Prod.fst) (ts.map (fun t => t.1)) := by
  intro ts
  induction ts with
  | nil =>
    intro s
    simp [dedupFirst_nil]
  | cons t ts ih =>
    intro s
    rw [List.foldl_cons, ih (setRef s t), setRef_keys, List.map_cons, dedupFirst_cons]
    by_cases hm : t.1 ∈ s.map Prod.fst
    · rw [if_pos hm, if_pos hm]
    · rw [if_neg hm, if_neg hm]
      simp [List.append_assoc]

theorem innerKeys_setRef_other (s : List (String × Yaml)) (t : String × String × String)
    (ap : String) (hap : t.1 ≠ ap) : innerKeys (setRef s t) ap = innerKeys s ap := by
  unfold innerKeys
  rw [lookupY_setRef_other s t ap hap]

theorem innerKeys_setRef_hit (s : List (String × Yaml)) (t : String × String × String) :
    innerKeys (setRef s t) t.1 =
      if t.2.1 ∈ innerKeys s t.1 then innerKeys s t.1 else innerKeys s t.1 ++ [t.2.1] := by
  unfold setRef innerKeys
  cases hs : lookupY t.1 s with
  | none =>
    rw [lookupY_append, hs]
    have h2 : lookupY t.1 [(t.1, Yaml.map [(t.2.1, refObj t.2.2)])] =
        some (Yaml.map [(t.2.1, refObj t.2.2)]) := by simp [lookupY]
    rw [h2]
    simp [orElseO]
  | some v =>
    have hsome : (lookupY t.1 s).isSome = true := by rw [hs]; rfl
    cases v with
    | map inner =>
      rw [lookupY_replaceVal_self t.1 _ s hsome]
      show (upsertY inner t.2.1 (refObj t.2.2)).map Prod.fst = _
      rw [upsertY_keys]
    | null =>
      rw [lookupY_replaceVal_self t.1 _ s hsome]
      simp
    | str sv =>
      rw [lookupY_replaceVal_self t.1 _ s hsome]
      simp

theorem foldl_setRef_innerKeys (ap : String) : ∀ (ts : List (String × String × String))
    (s : List (String × Yaml)),
    innerKeys (ts.foldl setRef s) ap =
      innerKeys s ap ++ dedupFirst (innerKeys s ap)
        ((ts.filter (fun t => t.1 = ap)).map (fun t => t.2.1)) := by
  intro ts
  induction ts with
  | nil =>
    intro s
    simp [dedupFirst_nil]
  | cons t ts ih =>
    intro s
    rw [List.foldl_cons, ih (setRef s t), List.filter_cons]
    by_cases hap : t.1 = ap
    · rw [if_pos (by simpa using hap), List.map_cons, dedupFirst_cons]
      have hhit := innerKeys_setRef_hit s t
      rw [hap] at hhit
      rw [hhit]
      by_cases hm : t.2.1 ∈ innerKeys s ap
      · rw [if_pos hm, if_pos hm]
      · rw [if_neg hm, if_neg hm]
        simp [List.append_assoc]
    · rw [if_neg (by simpa using hap), innerKeys_setRef_other s t ap hap]

/-- The readiness condition on the stored main document: its paths
entry is absent or truthy.  A falsy stored paths value makes the clear
step keep the key in place on the first run but move it to the end on
the second. -/
def pathsReady (d : List (String × Yaml)) : Bool :=
  match lookupY "paths" d with
  | none => true
  | some v => isTruthy v

theorem lookupY_filter_ne (k : String) : ∀ l : List (String × Yaml),
    lookupY k (l.filter (fun kv => kv.1 ≠ k)) = none := by
  intro l
  induction l with
  | nil => rfl
  | cons kv rest ih =>
    rw [List.filter_cons]
    by_cases hk : kv.1 = k
    · rw [if_neg (by simp [hk])]
      exact ih
    · rw [if_pos (by simpa using hk), lookupY, if_neg hk]
      exact ih

theorem filter_ne_replaceVal (l : List (String × Yaml)) (k : String) (v : Yaml) :
    (replaceVal l k v).filter (fun kv => kv.1 ≠ k) = l.filter (fun kv => kv.1 ≠ k) := by
  induction l with
  | nil => rfl
  | cons kv rest ih =>
    rw [replaceVal_cons, List.filter_cons, List.filter_cons]
    by_cases hk : kv.1 = k
    · rw [if_pos hk]
      rw [if_neg (by simp), if_neg (by simp [hk])]
      exact ih
    · rw [if_neg hk, if_pos (by simpa using hk), if_pos (by simpa using hk), ih]

theorem clearPaths_ready (d : List (String × Yaml)) (h : pathsReady d = true) :
    clearPaths d = (d.filter (fun kv => kv.1 ≠ "paths")) ++ [("paths", .map [])] := by
  unfold pathsReady at h
  cases hl : lookupY "paths" d with
  | none =>
    rw [clearPaths_none d hl]
    have hfilter : d.filter (fun kv => kv.1 ≠ "paths") = d := by
      apply List.filter_eq_self.mpr
      intro kv hkv
      simpa using lookupY_none_not_mem "paths" d hl kv hkv
    rw [hfilter]
  | some v =>
    rw [hl] at h
    rw [clearPaths_some d v hl, if_pos h]

theorem lookupY_clearPaths (d : List (String × Yaml)) :
    lookupY "paths" (clearPaths d) = some (.map []) := by
  cases hl : lookupY "paths" d with
  | none =>
    rw [clearPaths_none d hl, lookupY_append, hl]
    rfl
  | some v =>
    by_cases ht : isTruthy v = true
    · rw [clearPaths_some d v hl, if_pos ht, lookupY_append, lookupY_filter_ne]
      rfl
    · rw [clearPaths_some d v hl, if_neg ht]
      exact lookupY_replaceVal_self "paths" _ d (by rw [hl]; rfl)

theorem filter_ne_clearPaths (d : List (String × Yaml)) (h : pathsReady d = true) :
    (clearPaths d).filter (fun kv => kv.1 ≠ "paths") = d.filter (fun kv => kv.1 ≠ "paths") := by
  rw [clearPaths_ready d h, List.filter_append]
  have h1 : List.filter (fun kv => kv.1 ≠ "paths") [(("paths" : String), Yaml.map [])] = [] := rfl
  rw [h1, List.append_nil, List.filter_filter]
  simp

theorem clearPaths_clearPaths (d : List (String × Yaml)) (h : pathsReady d = true) :
    clearPaths (clearPaths d) = clearPaths d := by
  have hL := lookupY_clearPaths d
  rw [clearPaths_some _ _ hL]
  rw [if_pos (show isTruthy (Yaml.map []) = true from rfl)]
  rw [filter_ne_clearPaths d h]
  rw [clearPaths_ready d h]

theorem clearPaths_final (d : List (String × Yaml)) (built : List (String × Yaml))
    (h : pathsReady d = true) :
    clearPaths (replaceVal (clearPaths d) "paths" (.map built)) = clearPaths d := by
  have hsome : (lookupY "paths" (clearPaths d)).isSome = true := by
    rw [lookupY_clearPaths d]
    rfl
  have hf := lookupY_replaceVal_self "paths" (Yaml.map built) (clearPaths d) hsome
  rw [clearPaths_some _ _ hf]
  rw [if_pos (show isTruthy (Yaml.map built) = true from rfl)]
  rw [filter_ne_replaceVal, filter_ne_clearPaths d h]
  rw [clearPaths_ready d h]

theorem runUpdate_ok_map (cwd : List String) (baseDir : String)
    (d : List (String × Yaml)) (files : List (String × Except String Yaml)) :
    runUpdate cwd baseDir (.ok (.map d)) files true true =
      if files.isEmpty then .ok (clearPaths d) 0
      else .ok (replaceVal (clearPaths d) "paths" (.map (buildPaths cwd baseDir files)))
        (triples cwd baseDir files).length := rfl

/-- C3 (amended): provided the stored main document has no falsy paths
entry, a second update run over the unchanged tree writes exactly the
document the first run wrote, with the same reference count; the
rebuilt paths object lists api path keys in first-seen traversal order
and the method keys of every api path in first-seen order as well.
Serialization is a pure function of the document, so equal documents
give byte-identical output.  When the stored paths entry is falsy
(for example an empty paths section parsed as null), the first run
updates the key in place while the second moves it to the end, and the
two outputs differ. -/
theorem update_idempotent (cwd : List String) (baseDir : String)
    (d : List (String × Yaml)) (files : List (String × Except String Yaml))
    (f : List (String × Yaml)) (n : Nat)
    (hready : pathsReady d = true)
    (hrun : runUpdate cwd baseDir (.ok (.map d)) files true true = .ok f n) :
    runUpdate cwd baseDir (.ok (.map f)) files true true = .ok f n ∧
    (buildPaths cwd baseDir files).map Prod.fst =
      dedupFirst [] ((triples cwd baseDir files).map (fun t => t.1)) ∧
    ∀ ap, innerKeys (buildPaths cwd baseDir files) ap =
      dedupFirst [] (((triples cwd baseDir files).filter (fun t => t.1 = ap)).map
        (fun t => t.2.1)) := by
  refine ⟨?_, ?_, ?_⟩
  · rw [runUpdate_ok_map] at hrun ⊢
    cases hemp : files.isEmpty with
    | true =>
      rw [hemp] at hrun
      rw [if_pos rfl] at hrun
      rw [if_pos rfl]
      injection hrun with h1 h2
      rw [← h1, ← h2, clearPaths_clearPaths d hready]
    | false =>
      rw [hemp] at hrun
      rw [if_neg (by simp)] at hrun
      rw [if_neg (by simp)]
      injection hrun with h1 h2
      rw [← h1, ← h2, clearPaths_final d (buildPaths cwd baseDir files) hready]
  · unfold buildPaths
    rw [foldl_setRef_keys (triples cwd baseDir files) []]
    rfl
  · intro ap
    unfold buildPaths
    rw [foldl_setRef_innerKeys ap (triples cwd baseDir files) []]
    rfl

/-- A main document whose paths entry is the falsy null value, the
edge case that breaks byte-identical reruns. -/
def nullPathsDoc : List (String × Yaml) :=
  [("paths", .null), ("info", .str "t")]

/-- C3: the claim is false for a main document whose stored paths entry
is falsy: the first run keeps the paths key at its original position,
the second run moves it to the end, so the two written documents
differ already in their key order. -/
theorem update_idempotent_counterexample :
    (docOf (runUpdate [] "resource"
        (.ok (.map (docOf (runUpdate [] "resource" (.ok (.map nullPathsDoc))
          filesC5 true true)))) filesC5 true true)).map Prod.fst ≠
      (docOf (runUpdate [] "resource" (.ok (.map nullPathsDoc)) filesC5 true true)).map
        Prod.fst := by decide

/-- The ready main document of the idempotence witness. -/
def readyDoc : List (String × Yaml) :=
  [("openapi", .str "3.0.0")]

/-- The document the first witness run writes. -/
def readyDocAfter : List (String × Yaml) :=
  [("openapi", .str "3.0.0"),
   ("paths", .map [("/x", .map [("get", .map
     [("$ref", .str "paths/x.yaml#/paths/~1x/get")])])])]

/-- C3 witness: rerunning the update on the document the first run
wrote reproduces it exactly. -/
theorem update_idempotent_witness :
    runUpdate [] "resource" (.ok (.map readyDocAfter)) filesC5 true true =
      .ok readyDocAfter 1 :=
  (update_idempotent [] "resource" readyDoc filesC5 readyDocAfter 1 (by decide) (by rfl)).1

/-- The whole walk of walkDir (api-docs-update.ts lines 24-45) from the
root directory path: the node stands for the directory the path names. -/
def walkDir (dirPath : String) (root : FsNode) : List String × List String :=
  walkNode dirPath root

theorem walkChildren_append (dirPath : String) : ∀ a b : List FsNode,
    walkChildren dirPath (a ++ b) =
      ((walkChildren dirPath a).1 ++ (walkChildren dirPath b).1,
       (walkChildren dirPath a).2 ++ (walkChildren dirPath b).2) := by
  intro a
  induction a with
  | nil =>
    intro b
    simp [walkChildren]
  | cons c cs ih =>
    intro b
    rw [List.cons_append]
    cases c with
    | file nm => simp [walkChildren, ih b, List.append_assoc]
    | dir n ch => simp [walkChildren, ih b, List.append_assoc]
    | baddir n cd => simp [walkChildren, ih b, List.append_assoc]

/-- C6 (amended): a non-existent root directory yields the empty file
list with nothing logged and no error; any other directory read
failure is caught as well: its message is logged to standard error and
the walk returns normally, the failed directory contributing no files
while the rest of the tree is still collected.  No filesystem error
reaches the caller. -/
theorem walkDir_errors_swallowed (p dp dnm nm code : String) (pre post : List FsNode) :
    (walkDir p (.baddir nm "ENOENT") = ([], [])) ∧
    (code ≠ "ENOENT" → walkDir p (.baddir nm code) = ([], [walkErrMsg code])) ∧
    ((walkNode dp (.dir dnm (pre ++ .baddir nm code :: post))).1 =
      (walkNode dp (.dir dnm (pre ++ post))).1) := by
  refine ⟨by simp [walkDir, walkNode], ?_, ?_⟩
  · intro hc
    simp [walkDir, walkNode, hc]
  · rw [show walkNode dp (.dir dnm (pre ++ FsNode.baddir nm code :: post)) =
      walkChildren dp (pre ++ FsNode.baddir nm code :: post) from by simp [walkNode]]
    rw [show walkNode dp (.dir dnm (pre ++ post)) = walkChildren dp (pre ++ post) from by
      simp [walkNode]]
    rw [walkChildren_append, walkChildren_append]
    have hb : (walkChildren dp (FsNode.baddir nm code :: post)).1 =
        (walkChildren dp post).1 := by
      simp [walkChildren, walkNode]
    rw [hb]

/-- C6: the claim that non-ENOENT filesystem errors are surfaced to the
caller is false: on a concrete tree with an unreadable subdirectory the
surfaced reading of the specification stops with the error, but the
code swallows it, logs the message, and still returns the files found
elsewhere. -/
theorem walkDir_errors_counterexample :
    walkDir "paths" (.dir "paths" [.baddir "secret" "EACCES", .file "a.yaml"]) =
      (["paths/a.yaml"], [walkErrMsg "EACCES"]) ∧
    walkSurfaced "paths" (.dir "paths" [.baddir "secret" "EACCES", .file "a.yaml"]) =
      .error "EACCES" := by
  constructor
  · simp [walkDir, walkNode, walkChildren, walkErrMsg, isYamlName, jsEndsWith, strPre,
      FsNode.name]
  · simp [walkSurfaced, walkSurfacedNode, walkSurfacedChildren, FsNode.name]

/-- C6 witness: a concrete unreadable directory is logged and the walk
still returns normally with no files. -/
theorem walkDir_errors_swallowed_witness :
    walkDir "p" (.baddir "d" "EACCES") = ([], [walkErrMsg "EACCES"]) :=
  (walkDir_errors_swallowed "p" "x" "y" "d" "EACCES" [] []).2.1 (by decide)
